import Mathlib

/-!
Verification of `src/py3/compare.py`, a utility that compares two JSON
files by flattening each document into a path-keyed mapping of leaf values
and diffing the two flat mappings.

The embedding models:
  * JSON documents (`JValue`) with scalar leaves (`Scalar`); numbers are
    modelled as exact rationals, the exact values JSON numerals denote.
  * Python dict construction (`setItem`, `dictUpdate`): assignment to an
    existing key overwrites in place, assignment to a fresh key appends.
  * `flatten_json` (lines 15-34 of the source), including the
    empty-parent-key special case of the f-string key construction.
  * the pure core of `compare_json` (lines 62-88): set difference and
    intersection of key sets, `sorted`, the classification loop, and the
    basename-keyed report dictionary.
  * the effect sequence of `compare_json`/`main` around file validation
    (lines 50-53 and 102-108) as an explicit trace of effects.
-/

namespace CompareJson

/-- A JSON scalar leaf: `null`, boolean, number (exact rational) or string. -/
inductive Scalar where
  | null
  | bool (b : Bool)
  | num (q : ℚ)
  | str (s : String)
deriving DecidableEq, Repr

/-- A parsed JSON document: scalars, arrays, and objects (key/value fields
in insertion order, as Python dicts preserve insertion order). -/
inductive JValue where
  | null
  | bool (b : Bool)
  | num (q : ℚ)
  | str (s : String)
  | arr (elems : List JValue)
  | obj (fields : List (String × JValue))

/-- View a scalar as a (top-level) document. -/
def ofScalar : Scalar → JValue
  | .null => .null
  | .bool b => .bool b
  | .num q => .num q
  | .str s => .str s

/-- The keys of an association-list dictionary, in order. -/
def keysOf (m : List (String × α)) : List String := m.map Prod.fst

/-- Python dict item assignment `m[k] = v`: overwrite in place if `k` is
already a key, otherwise append the new binding. -/
def setItem (m : List (String × α)) (k : String) (v : α) : List (String × α) :=
  if m.any (fun p => p.1 = k) then
    m.map (fun p => if p.1 = k then (p.1, v) else p)
  else
    m ++ [(k, v)]

/-- Python `m.update(add)`: item assignment for each binding of `add` in order. -/
def dictUpdate (m add : List (String × α)) : List (String × α) :=
  add.foldl (fun acc p => setItem acc p.1 p.2) m

/-- Key construction `f"{parent_key}{sep}{k}" if parent_key else k` from
`flatten_json`: an empty parent key is falsy, so the separator is dropped. -/
def mkKey (parent_key sep k : String) : String :=
  if parent_key = "" then k else parent_key ++ sep ++ k

mutual

/-- `flatten_json(data, parent_key, sep)` (source lines 15-34): flatten a
nested document into a flat dict mapping separator-joined key paths to leaf
values.  Objects and arrays recurse (array steps use the decimal index);
any other value is recorded as a leaf at the current path. -/
def flatten_json : JValue → String → String → List (String × Scalar)
  | .obj fields, parent_key, sep => flattenFields fields parent_key sep []
  | .arr elems, parent_key, sep => flattenElems elems 0 parent_key sep []
  | .null, parent_key, _ => [(parent_key, .null)]
  | .bool b, parent_key, _ => [(parent_key, .bool b)]
  | .num q, parent_key, _ => [(parent_key, .num q)]
  | .str s, parent_key, _ => [(parent_key, .str s)]

/-- The `for k, v in data.items()` loop of `flatten_json`: `items` starts
empty and each child's flat dict is merged in with `items.update(...)`. -/
def flattenFields : List (String × JValue) → String → String →
    List (String × Scalar) → List (String × Scalar)
  | [], _, _, acc => acc
  | (k, v) :: rest, parent_key, sep, acc =>
      flattenFields rest parent_key sep
        (dictUpdate acc (flatten_json v (mkKey parent_key sep k) sep))

/-- The `for i, v in enumerate(data)` loop of `flatten_json`. -/
def flattenElems : List JValue → Nat → String → String →
    List (String × Scalar) → List (String × Scalar)
  | [], _, _, _, acc => acc
  | v :: rest, i, parent_key, sep, acc =>
      flattenElems rest (i + 1) parent_key sep
        (dictUpdate acc (flatten_json v (mkKey parent_key sep (Nat.repr i)) sep))

end

/-- Lexicographic comparison of strings by code points, as Python compares
strings; stated over the underlying character lists so it evaluates. -/
def pyLeB (a b : String) : Bool := decide (a.data ≤ b.data)

/-- Model of Python `sorted` on a list of strings: the ascending
lexicographic reordering.  The inputs sorted by `compare_json` are
duplicate-free, so any comparison sort produces this same list. -/
def sortStr (l : List String) : List String :=
  l.insertionSort (fun a b => pyLeB a b = true)

/-- Python set difference followed by `sorted`, as in
`sorted(keys1 - keys2)`: the distinct keys of the first list that do not
occur in the second, in ascending order. -/
def pySetDiff (k1 k2 : List String) : List String :=
  sortStr (k1.dedup.filter (fun k => !(k2.contains k)))

/-- Python set intersection followed by `sorted`, as in
`sorted(keys1 & keys2)`. -/
def pyInterKeys (k1 k2 : List String) : List String :=
  sortStr (k1.dedup.filter (fun k => k2.contains k))

/-- Python dict lookup `m[k]`; total with a default that is never reached,
since `compare_json` only looks up keys present in both dicts. -/
def pyGet (m : List (String × Scalar)) (k : String) : Scalar :=
  ((m.find? (fun p => p.1 == k)).map Prod.snd).getD .null

/-- Python `==` on the scalar values stored by `flatten_json`: `None` only
equals `None`, strings compare by value, numbers compare by exact value,
and booleans equal the numbers `1`/`0` (Python `bool` is an `int` subtype). -/
def pyEq : Scalar → Scalar → Bool
  | .null, .null => true
  | .bool a, .bool b => a == b
  | .bool a, .num q => (if a then (1 : ℚ) else 0) == q
  | .num q, .bool b => q == (if b then (1 : ℚ) else 0)
  | .num a, .num b => a == b
  | .str a, .str b => a == b
  | _, _ => false

/-- Modelled from the spec: "deep value equality (type-sensitive: a numeric
1 and string \"1\" are NOT equal; floating-point values compared by exact
equality, no tolerance)" - two scalars are equal exactly when they agree in
kind and in value. -/
def typeSensitiveEq (a b : Scalar) : Bool := decide (a = b)

/-- The pairs on which Python's `==` deviates from kind-sensitive equality:
a boolean and the number carrying the same truth value. -/
def boolNumCross : Scalar → Scalar → Bool
  | .bool a, .num q => (if a then (1 : ℚ) else 0) == q
  | .num q, .bool a => q == (if a then (1 : ℚ) else 0)
  | _, _ => false

/-- The classification loop of `compare_json` (lines 71-81): for each key,
in order, compare the two values; unequal pairs go to `diffs` with both
values, equal pairs go to `in_both`. -/
def diffLoop (flat1 flat2 : List (String × Scalar)) :
    List String → List (String × Scalar × Scalar) × List String
  | [] => ([], [])
  | k :: rest =>
      let r := diffLoop flat1 flat2 rest
      if pyEq (pyGet flat1 k) (pyGet flat2 k) then (r.1, k :: r.2)
      else ((k, pyGet flat1 k, pyGet flat2 k) :: r.1, r.2)

/-- The four lists computed by `compare_json` from the two flat dicts. -/
structure CmpResult where
  only1 : List String
  only2 : List String
  diffs : List (String × Scalar × Scalar)
  in_both : List String
deriving DecidableEq, Repr

/-- The pure core of `compare_json` (lines 65-81), starting from the two
flat dicts. -/
def compare_flat (flat1 flat2 : List (String × Scalar)) : CmpResult :=
  let keys1 := keysOf flat1
  let keys2 := keysOf flat2
  let r := diffLoop flat1 flat2 (pyInterKeys keys1 keys2)
  ⟨pySetDiff keys1 keys2, pySetDiff keys2 keys1, r.1, r.2⟩

/-- A value of the report dictionary returned by `compare_json`: either a
list of path strings or the list of differing-value entry dicts. -/
inductive RVal where
  | strs (l : List String)
  | entries (l : List (List (String × Scalar)))
deriving DecidableEq

/-- One entry of `differing_values` (lines 75-79): the Python dict literal
with fields `key`, basename of file 1, basename of file 2, built by
successive item assignment (so equal basenames collapse). -/
def diffEntry (b1 b2 : String) (e : String × Scalar × Scalar) :
    List (String × Scalar) :=
  setItem (setItem (setItem [] "key" (.str e.1)) b1 e.2.1) b2 e.2.2

/-- The report dict returned by `compare_json` (lines 83-88), built from
the two parsed documents and the two basenames by successive item
assignment of the four fields. -/
def compare_report (data1 data2 : JValue) (b1 b2 : String) :
    List (String × RVal) :=
  let r := compare_flat (flatten_json data1 "" ".") (flatten_json data2 "" ".")
  setItem (setItem (setItem (setItem []
    ("only_in_" ++ b1) (.strs r.only1))
    ("only_in_" ++ b2) (.strs r.only2))
    "differing_values" (.entries (r.diffs.map (diffEntry b1 b2))))
    "in_both_identical" (.strs r.in_both)

/-- An observable effect of a run of the program. -/
inductive Effect where
  | writeStderr (msg : String)
  | exitCode (n : Nat)
  | openRead (p : String)
  | parseFile (p : String)
  | writeFile (p : String)
  | writeStdout (msg : String)
deriving DecidableEq, Repr

/-- The stderr diagnostic of `compare_json` for a missing input file
(line 52, quotation marks around the path elided). -/
def errMsg (p : String) : String := "Error: cannot find JSON file at " ++ p

/-- The stdout confirmation line of `main` (line 108). -/
def doneMsg (out : String) : String :=
  "Differences (including value diffs) written to " ++ out

/-- The effect trace of `main` as a function of which paths name existing
regular files: `compare_json` first validates both input paths in order
(lines 50-53) and exits with status 1 on the first missing one; otherwise
it opens and parses both files, `main` writes the report to the output
path, prints the confirmation, and the process ends with status 0. -/
def main_trace (isfile : String → Bool) (file1 file2 output : String) :
    List Effect :=
  if isfile file1 = false then [.writeStderr (errMsg file1), .exitCode 1]
  else if isfile file2 = false then [.writeStderr (errMsg file2), .exitCode 1]
  else [.openRead file1, .parseFile file1, .openRead file2, .parseFile file2,
    .writeFile output, .writeStdout (doneMsg output), .exitCode 0]

mutual

/-- Nesting depth of a document: the number of stack frames `flatten_json`
needs below a value of this shape. -/
def depth : JValue → Nat
  | .obj fields => 1 + depthFields fields
  | .arr elems => 1 + depthElems elems
  | _ => 1

/-- Maximal nesting depth over an object's field values. -/
def depthFields : List (String × JValue) → Nat
  | [] => 0
  | (_, v) :: rest => max (depth v) (depthFields rest)

/-- Maximal nesting depth over an array's elements. -/
def depthElems : List JValue → Nat
  | [] => 0
  | v :: rest => max (depth v) (depthElems rest)

end

mutual

/-- Fuel-bounded evaluator for `flatten_json`: each recursion level
consumes one unit of fuel and evaluation reports failure (`none`) when the
fuel runs out.  Used to state that the flattener terminates within the
input's nesting depth. -/
def flattenFuel : Nat → JValue → String → String →
    Option (List (String × Scalar))
  | 0, _, _, _ => none
  | fuel + 1, .obj fields, parent_key, sep =>
      flattenFieldsFuel fuel fields parent_key sep []
  | fuel + 1, .arr elems, parent_key, sep =>
      flattenElemsFuel fuel elems 0 parent_key sep []
  | _ + 1, .null, parent_key, _ => some [(parent_key, .null)]
  | _ + 1, .bool b, parent_key, _ => some [(parent_key, .bool b)]
  | _ + 1, .num q, parent_key, _ => some [(parent_key, .num q)]
  | _ + 1, .str s, parent_key, _ => some [(parent_key, .str s)]

/-- Fuel-bounded version of `flattenFields`. -/
def flattenFieldsFuel : Nat → List (String × JValue) → String → String →
    List (String × Scalar) → Option (List (String × Scalar))
  | _, [], _, _, acc => some acc
  | fuel, (k, v) :: rest, parent_key, sep, acc =>
      match flattenFuel fuel v (mkKey parent_key sep k) sep with
      | none => none
      | some child => flattenFieldsFuel fuel rest parent_key sep (dictUpdate acc child)

/-- Fuel-bounded version of `flattenElems`. -/
def flattenElemsFuel : Nat → List JValue → Nat → String → String →
    List (String × Scalar) → Option (List (String × Scalar))
  | _, [], _, _, _, acc => some acc
  | fuel, v :: rest, i, parent_key, sep, acc =>
      match flattenFuel fuel v (mkKey parent_key sep (Nat.repr i)) sep with
      | none => none
      | some child => flattenElemsFuel fuel rest (i + 1) parent_key sep (dictUpdate acc child)

end

mutual

/-- Modelled from the spec: the number of leaves of a document ("total
leaf count equals the number of leaves in the input Document"). -/
def leafCount : JValue → Nat
  | .obj fields => leafCountFields fields
  | .arr elems => leafCountElems elems
  | _ => 1

/-- Leaf count summed over an object's fields. -/
def leafCountFields : List (String × JValue) → Nat
  | [] => 0
  | (_, v) :: rest => leafCount v + leafCountFields rest

/-- Leaf count summed over an array's elements. -/
def leafCountElems : List JValue → Nat
  | [] => 0
  | v :: rest => leafCount v + leafCountElems rest

end

mutual

/-- Modelled from the spec: the flat view with one entry per leaf, in
depth-first order ("the union of all recorded entries forms the FlatView;
total leaf count equals the number of leaves"), built with plain list
append instead of dict update, so no entry can overwrite another. -/
def sFlat : JValue → String → List (String × Scalar)
  | .obj fields, parent_key => sFields fields parent_key
  | .arr elems, parent_key => sElems elems 0 parent_key
  | .null, parent_key => [(parent_key, .null)]
  | .bool b, parent_key => [(parent_key, .bool b)]
  | .num q, parent_key => [(parent_key, .num q)]
  | .str s, parent_key => [(parent_key, .str s)]

/-- Append-based flattening over an object's fields. -/
def sFields : List (String × JValue) → String → List (String × Scalar)
  | [], _ => []
  | (k, v) :: rest, parent_key =>
      sFlat v (mkKey parent_key "." k) ++ sFields rest parent_key

/-- Append-based flattening over an array's elements. -/
def sElems : List JValue → Nat → String → List (String × Scalar)
  | [], _, _ => []
  | v :: rest, i, parent_key =>
      sFlat v (mkKey parent_key "." (Nat.repr i)) ++ sElems rest (i + 1) parent_key

end

mutual

/-- The traversal-step sequences of the leaves of a document, in
depth-first order: object steps are the keys, array steps the decimal
indices, and a scalar has the single empty sequence. -/
def leafSteps : JValue → List (List String)
  | .obj fields => stepsFields fields
  | .arr elems => stepsElems elems 0
  | _ => [[]]

/-- Leaf step sequences over an object's fields. -/
def stepsFields : List (String × JValue) → List (List String)
  | [] => []
  | (k, v) :: rest => (leafSteps v).map (k :: ·) ++ stepsFields rest

/-- Leaf step sequences over an array's elements. -/
def stepsElems : List JValue → Nat → List (List String)
  | [], _ => []
  | v :: rest, i => (leafSteps v).map (Nat.repr i :: ·) ++ stepsElems rest (i + 1)

end

/-- A benign object key: nonempty and free of the separator character. -/
def goodStr (k : String) : Bool := (k != "") && !(k.data.contains '.')

mutual

/-- Well-formedness of a document for collision-free flattening: every
object has distinct keys (as parsed JSON objects do) and every key is
nonempty and contains no separator character. -/
def goodB : JValue → Bool
  | .obj fields => goodFields fields
  | .arr elems => goodElems elems
  | _ => true

/-- The `goodB` condition over an object's fields. -/
def goodFields : List (String × JValue) → Bool
  | [] => true
  | (k, v) :: rest =>
      goodStr k && !(rest.any (fun p => p.1 == k)) && goodB v && goodFields rest

/-- The `goodB` condition over an array's elements. -/
def goodElems : List JValue → Bool
  | [] => true
  | v :: rest => goodB v && goodElems rest

end

/-- The path string a step sequence denotes under a given parent key,
folding `mkKey` over the steps. -/
def joinSteps (parent_key : String) (ss : List String) : String :=
  ss.foldl (fun q s => mkKey q "." s) parent_key

/-- Character lists joined by a separating dot. -/
def interChars : List (List Char) → List Char
  | [] => []
  | [s] => s
  | s :: rest => s ++ '.' :: interChars rest

/-- Two step sequences that branch apart: a common stem followed by
distinct steps.  Distinct leaves of one document always diverge, because
the node where their paths separate assigns them distinct steps. -/
def Diverge (s t : List String) : Prop :=
  ∃ a x y u v, x ≠ y ∧ s = a ++ x :: u ∧ t = a ++ y :: v

/-- All steps of a step sequence are benign. -/
def goodSteps (s : List String) : Prop := ∀ x ∈ s, goodStr x = true

/-- The numeric value of a decimal digit character. -/
def chVal (c : Char) : Nat := c.toNat - '0'.toNat

/-- The number denoted by a big-endian list of decimal digit characters. -/
def listVal (ds : List Char) : Nat := ds.foldl (fun a c => 10 * a + chVal c) 0

/-- The character list of the decimal rendering of a natural number. -/
def decRepr (n : Nat) : List Char := Nat.toDigitsCore 10 (n + 1) n []

end CompareJson

namespace CompareJson

/-- Claim C6: for every scalar value (including null), flattening it as a
top-level Document with the empty prefix yields a FlatView with exactly
one entry, keyed by the empty string and mapped to that scalar. -/
theorem C6_scalar_top_level (s : Scalar) :
    flatten_json (ofScalar s) "" "." = [("", s)] := by
  cases s <;> rfl

/-- Claim C9: flattening records no path for an empty mapping or empty
sequence value: such a child contributes nothing to the enclosing loop, so
in particular `flatten` of an object whose value is an empty object is the
empty FlatView, and comparing it against the empty object yields all four
report lists empty. -/
theorem C9_empty_containers :
    (∀ (k : String) rest parent_key sep acc,
      flattenFields ((k, JValue.obj []) :: rest) parent_key sep acc =
        flattenFields rest parent_key sep acc) ∧
    (∀ (k : String) rest parent_key sep acc,
      flattenFields ((k, JValue.arr []) :: rest) parent_key sep acc =
        flattenFields rest parent_key sep acc) ∧
    flatten_json (.obj [("a", .obj [])]) "" "." = [] ∧
    compare_flat (flatten_json (.obj [("a", .obj [])]) "" ".")
      (flatten_json (.obj []) "" ".") = ⟨[], [], [], []⟩ := by
  refine ⟨?_, ?_, by decide, by decide⟩ <;>
    · intro k rest parent_key sep acc
      simp [flattenFields, flatten_json, flattenElems, dictUpdate]

/-- Claim C3: if either input path does not name an existing regular file,
the run writes the diagnostic to stderr and terminates with exit status 1
before any file is opened or parsed, and no output file is written. -/
theorem C3_missing_input (isfile : String → Bool) (f1 f2 out : String)
    (h : isfile f1 = false ∨ isfile f2 = false) :
    ∃ p, (p = f1 ∨ p = f2) ∧ isfile p = false ∧
      main_trace isfile f1 f2 out = [.writeStderr (errMsg p), .exitCode 1] ∧
      (∀ q, Effect.openRead q ∉ main_trace isfile f1 f2 out) ∧
      (∀ q, Effect.parseFile q ∉ main_trace isfile f1 f2 out) ∧
      (∀ q, Effect.writeFile q ∉ main_trace isfile f1 f2 out) ∧
      (∀ n, Effect.exitCode n ∈ main_trace isfile f1 f2 out → n ≠ 0) := by
  cases hf1 : isfile f1 with
  | false =>
    refine ⟨f1, Or.inl rfl, hf1, ?_, ?_, ?_, ?_, ?_⟩ <;>
      simp [main_trace, hf1]
  | true =>
    have hf2 : isfile f2 = false := by
      rcases h with h | h
      · rw [hf1] at h; cases h
      · exact h
    refine ⟨f2, Or.inr rfl, hf2, ?_, ?_, ?_, ?_, ?_⟩ <;>
      simp [main_trace, hf1, hf2]

/-- Witness for C3 at a concrete filesystem with no files. -/
theorem C3_missing_input_witness :
    ((fun _ => false : String → Bool) "a.json" = false ∨
      (fun _ => false : String → Bool) "b.json" = false) ∧
    (∃ p, (p = "a.json" ∨ p = "b.json") ∧ (fun _ => false : String → Bool) p = false ∧
      main_trace (fun _ => false) "a.json" "b.json" "differences.json" =
        [.writeStderr (errMsg p), .exitCode 1] ∧
      (∀ q, Effect.openRead q ∉ main_trace (fun _ => false) "a.json" "b.json" "differences.json") ∧
      (∀ q, Effect.parseFile q ∉ main_trace (fun _ => false) "a.json" "b.json" "differences.json") ∧
      (∀ q, Effect.writeFile q ∉ main_trace (fun _ => false) "a.json" "b.json" "differences.json") ∧
      (∀ n, Effect.exitCode n ∈ main_trace (fun _ => false) "a.json" "b.json" "differences.json" →
        n ≠ 0)) :=
  ⟨Or.inl rfl,
    C3_missing_input (fun _ => false) "a.json" "b.json" "differences.json" (Or.inl rfl)⟩

end CompareJson

namespace CompareJson

theorem depth_pos (d : JValue) : 0 < depth d := by
  cases d <;> simp [depth]

mutual

theorem flattenFuel_eq (d : JValue) : ∀ fuel parent_key sep, depth d ≤ fuel →
    flattenFuel fuel d parent_key sep = some (flatten_json d parent_key sep) := by
  intro fuel parent_key sep h
  match fuel, d with
  | 0, d => exact absurd (Nat.lt_of_lt_of_le (depth_pos d) h) (by simp)
  | fuel + 1, .obj fields =>
    have hf : depthFields fields ≤ fuel := by
      simp [depth] at h; omega
    simpa [flattenFuel, flatten_json] using
      flattenFieldsFuel_eq fields fuel parent_key sep [] hf
  | fuel + 1, .arr elems =>
    have hf : depthElems elems ≤ fuel := by
      simp [depth] at h; omega
    simpa [flattenFuel, flatten_json] using
      flattenElemsFuel_eq elems fuel 0 parent_key sep [] hf
  | fuel + 1, .null => rfl
  | fuel + 1, .bool b => rfl
  | fuel + 1, .num q => rfl
  | fuel + 1, .str s => rfl

theorem flattenFieldsFuel_eq (fs : List (String × JValue)) :
    ∀ fuel parent_key sep acc, depthFields fs ≤ fuel →
    flattenFieldsFuel fuel fs parent_key sep acc =
      some (flattenFields fs parent_key sep acc) := by
  intro fuel parent_key sep acc h
  match fs with
  | [] => rfl
  | (k, v) :: rest =>
    have h1 : depth v ≤ fuel := by simp [depthFields] at h; omega
    have h2 : depthFields rest ≤ fuel := by simp [depthFields] at h; omega
    rw [flattenFieldsFuel, flattenFuel_eq v fuel (mkKey parent_key sep k) sep h1]
    simpa [flattenFields] using
      flattenFieldsFuel_eq rest fuel parent_key sep
        (dictUpdate acc (flatten_json v (mkKey parent_key sep k) sep)) h2

theorem flattenElemsFuel_eq (xs : List JValue) :
    ∀ fuel i parent_key sep acc, depthElems xs ≤ fuel →
    flattenElemsFuel fuel xs i parent_key sep acc =
      some (flattenElems xs i parent_key sep acc) := by
  intro fuel i parent_key sep acc h
  match xs with
  | [] => rfl
  | v :: rest =>
    have h1 : depth v ≤ fuel := by simp [depthElems] at h; omega
    have h2 : depthElems rest ≤ fuel := by simp [depthElems] at h; omega
    rw [flattenElemsFuel, flattenFuel_eq v fuel (mkKey parent_key sep (Nat.repr i)) sep h1]
    simpa [flattenElems] using
      flattenElemsFuel_eq rest fuel (i + 1) parent_key sep
        (dictUpdate acc (flatten_json v (mkKey parent_key sep (Nat.repr i)) sep)) h2

end

/-- Claim C8: the flattener accepts every well-formed Document without
error conditions and always terminates, bounded by the input's nesting
depth: with at least `depth d` recursion levels available, fuel-bounded
evaluation succeeds and returns the flattening. -/
theorem C8_flatten_terminates (d : JValue) (parent_key sep : String) (fuel : Nat)
    (h : depth d ≤ fuel) :
    flattenFuel fuel d parent_key sep = some (flatten_json d parent_key sep) :=
  flattenFuel_eq d fuel parent_key sep h

/-- Witness for C8 at a concrete nested document and exactly its depth. -/
theorem C8_flatten_terminates_witness :
    depth (.obj [("a", .arr [.num 1, .obj [("b", .null)]])]) ≤ 4 ∧
    flattenFuel 4 (.obj [("a", .arr [.num 1, .obj [("b", .null)]])]) "" "." =
      some (flatten_json (.obj [("a", .arr [.num 1, .obj [("b", .null)]])]) "" ".") :=
  ⟨by decide, C8_flatten_terminates _ "" "." 4 (by decide)⟩

end CompareJson

namespace CompareJson

theorem setItem_nil (k : String) (v : α) : setItem [] k v = [(k, v)] := by
  simp [setItem]

theorem setItem_single_same (k : String) (v w : α) :
    setItem [(k, v)] k w = [(k, w)] := by
  simp [setItem]

theorem setItem_fresh (m : List (String × α)) (k : String) (v : α)
    (h : ∀ p ∈ m, p.1 ≠ k) : setItem m k v = m ++ [(k, v)] := by
  have : m.any (fun p => decide (p.1 = k)) = false := by
    simp only [List.any_eq_false]
    intro p hp
    simp [h p hp]
  simp [setItem, this]

theorem data_onlyIn : "only_in_".data = ['o', 'n', 'l', 'y', '_', 'i', 'n', '_'] := rfl

theorem onlyIn_ne_differing (b : String) : ("only_in_" ++ b) ≠ "differing_values" := by
  intro h
  have h2 : ("only_in_" ++ b).data = "differing_values".data := by rw [h]
  rw [String.data_append, data_onlyIn] at h2
  simp only [List.cons_append] at h2
  injection h2 with h3
  exact absurd h3 (by decide)

theorem onlyIn_ne_inboth (b : String) : ("only_in_" ++ b) ≠ "in_both_identical" := by
  intro h
  have h2 : ("only_in_" ++ b).data = "in_both_identical".data := by rw [h]
  rw [String.data_append, data_onlyIn] at h2
  simp only [List.cons_append] at h2
  injection h2 with h3
  exact absurd h3 (by decide)

theorem diffEntry_collapse (b : String) (e : String × Scalar × Scalar) :
    diffEntry b b e =
      if b = "key" then [("key", e.2.2)]
      else [("key", Scalar.str e.1), (b, e.2.2)] := by
  by_cases hb : b = "key"
  · subst hb
    simp [diffEntry, setItem]
  · have hb2 : ¬ ("key" = b) := fun h => hb h.symm
    simp [diffEntry, setItem, setItem_nil, hb, hb2]

/-- Claim C10: when the two input files have equal basenames the report's
field names collide: the single `only_in_<basename>` field holds only file
B's path list (file A's list is overwritten), and each `differing_values`
entry records only file B's value under the shared basename field (file
A's value is overwritten; if the basename is the literal string `key`, the
collapse also swallows the path field). -/
theorem C10_basename_collision (data1 data2 : JValue) (b : String) :
    compare_report data1 data2 b b =
      [("only_in_" ++ b,
          .strs (compare_flat (flatten_json data1 "" ".")
            (flatten_json data2 "" ".")).only2),
        ("differing_values",
          .entries ((compare_flat (flatten_json data1 "" ".")
              (flatten_json data2 "" ".")).diffs.map
            (fun e => if b = "key" then [("key", e.2.2)]
              else [("key", Scalar.str e.1), (b, e.2.2)]))),
        ("in_both_identical",
          .strs (compare_flat (flatten_json data1 "" ".")
            (flatten_json data2 "" ".")).in_both)] := by
  have hob := onlyIn_ne_differing b
  have hoi := onlyIn_ne_inboth b
  rw [compare_report]
  rw [setItem_nil, setItem_single_same]
  rw [setItem_fresh _ "differing_values" _ (by simp [hob])]
  rw [setItem_fresh _ "in_both_identical" _ (by simp [hoi])]
  simp [diffEntry_collapse]

end CompareJson

namespace CompareJson

theorem contains_iff (l : List String) (a : String) :
    l.contains a = true ↔ a ∈ l := by
  simp [List.contains, List.elem_iff]

theorem pyLeB_iff (a b : String) : pyLeB a b = true ↔ a ≤ b := by
  rw [pyLeB, decide_eq_true_eq, String.le_iff_toList_le]
  exact Iff.rfl

theorem sortStr_perm (l : List String) : (sortStr l).Perm l :=
  List.perm_insertionSort _ l

theorem mem_sortStr (l : List String) (k : String) : k ∈ sortStr l ↔ k ∈ l :=
  (sortStr_perm l).mem_iff

theorem sortStr_sorted (l : List String) : List.Sorted (· ≤ ·) (sortStr l) := by
  have ht : IsTotal String (fun a b => pyLeB a b = true) :=
    ⟨fun a b => by
      rcases le_total a b with h | h
      · exact Or.inl ((pyLeB_iff a b).mpr h)
      · exact Or.inr ((pyLeB_iff b a).mpr h)⟩
  have htr : IsTrans String (fun a b => pyLeB a b = true) :=
    ⟨fun a b c h1 h2 =>
      (pyLeB_iff a c).mpr (le_trans ((pyLeB_iff a b).mp h1) ((pyLeB_iff b c).mp h2))⟩
  have h := @List.sorted_insertionSort String (fun a b => pyLeB a b = true) _ ht htr l
  exact h.imp (fun hab => (pyLeB_iff _ _).mp hab)

theorem mem_pySetDiff (k1 k2 : List String) (k : String) :
    k ∈ pySetDiff k1 k2 ↔ k ∈ k1 ∧ k ∉ k2 := by
  rw [pySetDiff, mem_sortStr, List.mem_filter, List.mem_dedup]
  simp [contains_iff]

theorem mem_pyInterKeys (k1 k2 : List String) (k : String) :
    k ∈ pyInterKeys k1 k2 ↔ k ∈ k1 ∧ k ∈ k2 := by
  rw [pyInterKeys, mem_sortStr, List.mem_filter, List.mem_dedup]
  simp [contains_iff]

theorem diffLoop_fst (flat1 flat2 : List (String × Scalar)) (l : List String) :
    (diffLoop flat1 flat2 l).1 =
      (l.filter (fun k => !(pyEq (pyGet flat1 k) (pyGet flat2 k)))).map
        (fun k => (k, pyGet flat1 k, pyGet flat2 k)) := by
  induction l with
  | nil => rfl
  | cons k rest ih =>
    by_cases h : pyEq (pyGet flat1 k) (pyGet flat2 k) = true <;>
      simp [diffLoop, List.filter_cons, h, ih]

theorem diffLoop_snd (flat1 flat2 : List (String × Scalar)) (l : List String) :
    (diffLoop flat1 flat2 l).2 =
      l.filter (fun k => pyEq (pyGet flat1 k) (pyGet flat2 k)) := by
  induction l with
  | nil => rfl
  | cons k rest ih =>
    by_cases h : pyEq (pyGet flat1 k) (pyGet flat2 k) = true <;>
      simp [diffLoop, List.filter_cons, h, ih]

theorem diffLoop_length (flat1 flat2 : List (String × Scalar)) (l : List String) :
    (diffLoop flat1 flat2 l).1.length + (diffLoop flat1 flat2 l).2.length = l.length := by
  rw [diffLoop_fst, diffLoop_snd, List.length_map]
  have := List.filter_append_perm (fun k => pyEq (pyGet flat1 k) (pyGet flat2 k)) l
  have hlen := this.length_eq
  rw [List.length_append] at hlen
  omega

end CompareJson

namespace CompareJson

theorem compare_flat_only1 (flat1 flat2 : List (String × Scalar)) :
    (compare_flat flat1 flat2).only1 = pySetDiff (keysOf flat1) (keysOf flat2) := rfl

theorem compare_flat_only2 (flat1 flat2 : List (String × Scalar)) :
    (compare_flat flat1 flat2).only2 = pySetDiff (keysOf flat2) (keysOf flat1) := rfl

theorem compare_flat_diffs (flat1 flat2 : List (String × Scalar)) :
    (compare_flat flat1 flat2).diffs =
      (diffLoop flat1 flat2 (pyInterKeys (keysOf flat1) (keysOf flat2))).1 := rfl

theorem compare_flat_in_both (flat1 flat2 : List (String × Scalar)) :
    (compare_flat flat1 flat2).in_both =
      (diffLoop flat1 flat2 (pyInterKeys (keysOf flat1) (keysOf flat2))).2 := rfl

theorem mem_only1 (flat1 flat2 : List (String × Scalar)) (k : String) :
    k ∈ (compare_flat flat1 flat2).only1 ↔
      k ∈ keysOf flat1 ∧ k ∉ keysOf flat2 := by
  rw [compare_flat_only1, mem_pySetDiff]

theorem mem_only2 (flat1 flat2 : List (String × Scalar)) (k : String) :
    k ∈ (compare_flat flat1 flat2).only2 ↔
      k ∈ keysOf flat2 ∧ k ∉ keysOf flat1 := by
  rw [compare_flat_only2, mem_pySetDiff]

theorem mem_diffs_key (flat1 flat2 : List (String × Scalar)) (k : String) :
    k ∈ (compare_flat flat1 flat2).diffs.map Prod.fst ↔
      k ∈ keysOf flat1 ∧ k ∈ keysOf flat2 ∧
        pyEq (pyGet flat1 k) (pyGet flat2 k) = false := by
  rw [compare_flat_diffs, diffLoop_fst, List.map_map]
  simp only [List.mem_map, Function.comp, List.mem_filter, mem_pyInterKeys,
    Bool.not_eq_true']
  constructor
  · rintro ⟨a, ⟨⟨ha1, ha2⟩, ha3⟩, rfl⟩
    exact ⟨ha1, ha2, ha3⟩
  · rintro ⟨h1, h2, h3⟩
    exact ⟨k, ⟨⟨h1, h2⟩, h3⟩, rfl⟩

theorem mem_in_both (flat1 flat2 : List (String × Scalar)) (k : String) :
    k ∈ (compare_flat flat1 flat2).in_both ↔
      k ∈ keysOf flat1 ∧ k ∈ keysOf flat2 ∧
        pyEq (pyGet flat1 k) (pyGet flat2 k) = true := by
  rw [compare_flat_in_both, diffLoop_snd]
  simp only [List.mem_filter, mem_pyInterKeys]
  tauto

/-- Claim C2: for every pair of FlatViews, the four result lists of the
comparison are pairwise disjoint, together they cover exactly the union of
the two key sets, and their lengths add up to the size of that union. -/
theorem C2_partition (flat1 flat2 : List (String × Scalar))
    (h1 : (keysOf flat1).Nodup) (h2 : (keysOf flat2).Nodup) :
    ((compare_flat flat1 flat2).only1.Disjoint (compare_flat flat1 flat2).only2 ∧
      (compare_flat flat1 flat2).only1.Disjoint
        ((compare_flat flat1 flat2).diffs.map Prod.fst) ∧
      (compare_flat flat1 flat2).only1.Disjoint (compare_flat flat1 flat2).in_both ∧
      (compare_flat flat1 flat2).only2.Disjoint
        ((compare_flat flat1 flat2).diffs.map Prod.fst) ∧
      (compare_flat flat1 flat2).only2.Disjoint (compare_flat flat1 flat2).in_both ∧
      ((compare_flat flat1 flat2).diffs.map Prod.fst).Disjoint
        (compare_flat flat1 flat2).in_both) ∧
    (∀ k, (k ∈ (compare_flat flat1 flat2).only1 ∨
        k ∈ (compare_flat flat1 flat2).only2 ∨
        k ∈ (compare_flat flat1 flat2).diffs.map Prod.fst ∨
        k ∈ (compare_flat flat1 flat2).in_both) ↔
      (k ∈ keysOf flat1 ∨ k ∈ keysOf flat2)) ∧
    (compare_flat flat1 flat2).only1.length + (compare_flat flat1 flat2).only2.length +
        (compare_flat flat1 flat2).diffs.length +
        (compare_flat flat1 flat2).in_both.length =
      (keysOf flat1 ++ keysOf flat2).toFinset.card := by
  refine ⟨⟨?_, ?_, ?_, ?_, ?_, ?_⟩, ?_, ?_⟩
  · intro k hk1 hk2
    rw [mem_only1] at hk1; rw [mem_only2] at hk2
    exact hk1.2 hk2.1
  · intro k hk1 hk2
    rw [mem_only1] at hk1; rw [mem_diffs_key] at hk2
    exact hk1.2 hk2.2.1
  · intro k hk1 hk2
    rw [mem_only1] at hk1; rw [mem_in_both] at hk2
    exact hk1.2 hk2.2.1
  · intro k hk1 hk2
    rw [mem_only2] at hk1; rw [mem_diffs_key] at hk2
    exact hk1.2 hk2.1
  · intro k hk1 hk2
    rw [mem_only2] at hk1; rw [mem_in_both] at hk2
    exact hk1.2 hk2.1
  · intro k hk1 hk2
    rw [mem_diffs_key] at hk1; rw [mem_in_both] at hk2
    rw [hk1.2.2] at hk2
    exact Bool.false_ne_true hk2.2.2
  · intro k
    rw [mem_only1, mem_only2, mem_diffs_key, mem_in_both]
    constructor
    · rintro (⟨h, _⟩ | ⟨h, _⟩ | ⟨h, _⟩ | ⟨h, _⟩)
      · exact Or.inl h
      · exact Or.inr h
      · exact Or.inl h
      · exact Or.inl h
    · intro h
      by_cases ha : k ∈ keysOf flat1 <;> by_cases hb : k ∈ keysOf flat2
      · by_cases heq : pyEq (pyGet flat1 k) (pyGet flat2 k) = true
        · exact Or.inr (Or.inr (Or.inr ⟨ha, hb, heq⟩))
        · exact Or.inr (Or.inr (Or.inl ⟨ha, hb, Bool.not_eq_true _ ▸ heq⟩))
      · exact Or.inl ⟨ha, hb⟩
      · exact Or.inr (Or.inl ⟨hb, ha⟩)
      · rcases h with h | h
        · exact absurd h ha
        · exact absurd h hb
  · have e1 : (compare_flat flat1 flat2).only1.length =
        ((keysOf flat1).filter (fun k => !((keysOf flat2).contains k))).length := by
      rw [compare_flat_only1, pySetDiff, (sortStr_perm _).length_eq, h1.dedup]
    have e2 : (compare_flat flat1 flat2).only2.length =
        ((keysOf flat2).filter (fun k => !((keysOf flat1).contains k))).length := by
      rw [compare_flat_only2, pySetDiff, (sortStr_perm _).length_eq, h2.dedup]
    have einter : (pyInterKeys (keysOf flat1) (keysOf flat2)).length =
        ((keysOf flat1).filter (fun k => (keysOf flat2).contains k)).length := by
      rw [pyInterKeys, (sortStr_perm _).length_eq, h1.dedup]
    have e34 : (compare_flat flat1 flat2).diffs.length +
        (compare_flat flat1 flat2).in_both.length =
        ((keysOf flat1).filter (fun k => (keysOf flat2).contains k)).length := by
      rw [compare_flat_diffs, compare_flat_in_both, diffLoop_length, einter]
    have hsplit : ((keysOf flat1).filter (fun k => (keysOf flat2).contains k)).length +
        ((keysOf flat1).filter (fun k => !((keysOf flat2).contains k))).length =
        (keysOf flat1).length := by
      have hp := (List.filter_append_perm
        (fun k => (keysOf flat2).contains k) (keysOf flat1)).length_eq
      rw [List.length_append] at hp
      omega
    have hcf : ∀ x, ((keysOf flat1).contains x = false) ↔ (x ∉ keysOf flat1) := by
      intro x
      constructor
      · intro h hmem
        rw [(contains_iff _ _).mpr hmem] at h
        cases h
      · intro h
        cases hc : (keysOf flat1).contains x
        · rfl
        · exact absurd ((contains_iff _ _).mp hc) h
    have hBA : ((keysOf flat2).filter (fun k => !((keysOf flat1).contains k))).toFinset
        = (keysOf flat2).toFinset \ (keysOf flat1).toFinset := by
      ext x
      simp only [List.mem_toFinset, List.mem_filter, Finset.mem_sdiff,
        Bool.not_eq_true']
      rw [hcf x]
    have hcard := Finset.card_sdiff_add_card (keysOf flat2).toFinset (keysOf flat1).toFinset
    rw [← hBA, List.toFinset_card_of_nodup (h2.filter _),
      List.toFinset_card_of_nodup h1] at hcard
    rw [List.toFinset_append,
      Finset.union_comm ((keysOf flat1).toFinset) ((keysOf flat2).toFinset)]
    omega

/-- Witness for C2 at a concrete pair of FlatViews. -/
theorem C2_partition_witness :
    ((keysOf [("a", Scalar.num 1)]).Nodup ∧
      (keysOf [("a", Scalar.num 2), ("b", Scalar.null)]).Nodup) ∧
    (((compare_flat [("a", Scalar.num 1)] [("a", Scalar.num 2), ("b", Scalar.null)]).only1.Disjoint
        (compare_flat [("a", Scalar.num 1)] [("a", Scalar.num 2), ("b", Scalar.null)]).only2 ∧
      (compare_flat [("a", Scalar.num 1)] [("a", Scalar.num 2), ("b", Scalar.null)]).only1.Disjoint
        ((compare_flat [("a", Scalar.num 1)] [("a", Scalar.num 2), ("b", Scalar.null)]).diffs.map Prod.fst) ∧
      (compare_flat [("a", Scalar.num 1)] [("a", Scalar.num 2), ("b", Scalar.null)]).only1.Disjoint
        (compare_flat [("a", Scalar.num 1)] [("a", Scalar.num 2), ("b", Scalar.null)]).in_both ∧
      (compare_flat [("a", Scalar.num 1)] [("a", Scalar.num 2), ("b", Scalar.null)]).only2.Disjoint
        ((compare_flat [("a", Scalar.num 1)] [("a", Scalar.num 2), ("b", Scalar.null)]).diffs.map Prod.fst) ∧
      (compare_flat [("a", Scalar.num 1)] [("a", Scalar.num 2), ("b", Scalar.null)]).only2.Disjoint
        (compare_flat [("a", Scalar.num 1)] [("a", Scalar.num 2), ("b", Scalar.null)]).in_both ∧
      ((compare_flat [("a", Scalar.num 1)] [("a", Scalar.num 2), ("b", Scalar.null)]).diffs.map Prod.fst).Disjoint
        (compare_flat [("a", Scalar.num 1)] [("a", Scalar.num 2), ("b", Scalar.null)]).in_both) ∧
    (∀ k, (k ∈ (compare_flat [("a", Scalar.num 1)] [("a", Scalar.num 2), ("b", Scalar.null)]).only1 ∨
        k ∈ (compare_flat [("a", Scalar.num 1)] [("a", Scalar.num 2), ("b", Scalar.null)]).only2 ∨
        k ∈ (compare_flat [("a", Scalar.num 1)] [("a", Scalar.num 2), ("b", Scalar.null)]).diffs.map Prod.fst ∨
        k ∈ (compare_flat [("a", Scalar.num 1)] [("a", Scalar.num 2), ("b", Scalar.null)]).in_both) ↔
      (k ∈ keysOf [("a", Scalar.num 1)] ∨ k ∈ keysOf [("a", Scalar.num 2), ("b", Scalar.null)])) ∧
    (compare_flat [("a", Scalar.num 1)] [("a", Scalar.num 2), ("b", Scalar.null)]).only1.length +
        (compare_flat [("a", Scalar.num 1)] [("a", Scalar.num 2), ("b", Scalar.null)]).only2.length +
        (compare_flat [("a", Scalar.num 1)] [("a", Scalar.num 2), ("b", Scalar.null)]).diffs.length +
        (compare_flat [("a", Scalar.num 1)] [("a", Scalar.num 2), ("b", Scalar.null)]).in_both.length =
      (keysOf [("a", Scalar.num 1)] ++ keysOf [("a", Scalar.num 2), ("b", Scalar.null)]).toFinset.card) :=
  ⟨⟨by decide, by decide⟩,
    C2_partition [("a", Scalar.num 1)] [("a", Scalar.num 2), ("b", Scalar.null)]
      (by decide) (by decide)⟩

end CompareJson

namespace CompareJson

/-- Claim C5: the only-in-A and only-in-B lists are sorted ascending
lexicographically, and the differing and identical lists preserve the
ascending sorted order of the key intersection, being in-order
sublists of it. -/
theorem C5_sorted_output (flat1 flat2 : List (String × Scalar)) :
    List.Sorted (· ≤ ·) (compare_flat flat1 flat2).only1 ∧
    List.Sorted (· ≤ ·) (compare_flat flat1 flat2).only2 ∧
    List.Sorted (· ≤ ·) ((compare_flat flat1 flat2).diffs.map Prod.fst) ∧
    List.Sorted (· ≤ ·) (compare_flat flat1 flat2).in_both ∧
    ((compare_flat flat1 flat2).diffs.map Prod.fst).Sublist
      (pyInterKeys (keysOf flat1) (keysOf flat2)) ∧
    (compare_flat flat1 flat2).in_both.Sublist
      (pyInterKeys (keysOf flat1) (keysOf flat2)) := by
  have hd : (compare_flat flat1 flat2).diffs.map Prod.fst =
      (pyInterKeys (keysOf flat1) (keysOf flat2)).filter
        (fun k => !(pyEq (pyGet flat1 k) (pyGet flat2 k))) := by
    rw [compare_flat_diffs, diffLoop_fst, List.map_map]
    exact List.map_id'' (fun k => rfl) _
  have hb : (compare_flat flat1 flat2).in_both =
      (pyInterKeys (keysOf flat1) (keysOf flat2)).filter
        (fun k => pyEq (pyGet flat1 k) (pyGet flat2 k)) := by
    rw [compare_flat_in_both, diffLoop_snd]
  refine ⟨?_, ?_, ?_, ?_, ?_, ?_⟩
  · rw [compare_flat_only1, pySetDiff]
    exact sortStr_sorted _
  · rw [compare_flat_only2, pySetDiff]
    exact sortStr_sorted _
  · rw [hd]
    exact List.Pairwise.sublist (List.filter_sublist _) (sortStr_sorted _)
  · rw [hb]
    exact List.Pairwise.sublist (List.filter_sublist _) (sortStr_sorted _)
  · rw [hd]
    exact List.filter_sublist _
  · rw [hb]
    exact List.filter_sublist _

theorem pyEq_refl (v : Scalar) : pyEq v v = true := by
  cases v <;> simp [pyEq]

theorem keysOf_setItem (m : List (String × α)) (k : String) (v : α) :
    keysOf (setItem m k v) =
      if m.any (fun p => p.1 = k) then keysOf m else keysOf m ++ [k] := by
  by_cases h : m.any (fun p => decide (p.1 = k)) = true
  · simp only [setItem, h, if_true, keysOf, List.map_map, List.map_append]
    exact List.map_congr_left (fun p _ => by dsimp; split <;> rfl)
  · rw [Bool.not_eq_true] at h
    simp [setItem, h, keysOf]

theorem nodup_keys_setItem (m : List (String × α)) (k : String) (v : α)
    (h : (keysOf m).Nodup) : (keysOf (setItem m k v)).Nodup := by
  rw [keysOf_setItem]
  split
  · exact h
  · rename_i hany
    rw [Bool.not_eq_true, List.any_eq_false] at hany
    rw [List.nodup_append]
    refine ⟨h, List.nodup_singleton k, ?_⟩
    intro a ha hk
    rw [List.mem_singleton] at hk
    subst hk
    rcases List.mem_map.mp ha with ⟨p, hp, hpa⟩
    have := hany p hp
    simp [hpa] at this

theorem nodup_keys_dictUpdate (add m : List (String × α))
    (h : (keysOf m).Nodup) : (keysOf (dictUpdate m add)).Nodup := by
  induction add generalizing m with
  | nil => exact h
  | cons p rest ih =>
    exact ih (setItem m p.1 p.2) (nodup_keys_setItem m p.1 p.2 h)

theorem flattenFields_nodup (fs : List (String × JValue)) :
    ∀ parent_key sep acc, (keysOf acc).Nodup →
    (keysOf (flattenFields fs parent_key sep acc)).Nodup := by
  induction fs with
  | nil => intro _ _ acc h; exact h
  | cons p rest ih =>
    intro parent_key sep acc h
    rcases p with ⟨k, v⟩
    rw [flattenFields]
    exact ih parent_key sep _ (nodup_keys_dictUpdate _ acc h)

theorem flattenElems_nodup (xs : List JValue) :
    ∀ i parent_key sep acc, (keysOf acc).Nodup →
    (keysOf (flattenElems xs i parent_key sep acc)).Nodup := by
  induction xs with
  | nil => intro _ _ _ acc h; exact h
  | cons v rest ih =>
    intro i parent_key sep acc h
    rw [flattenElems]
    exact ih (i + 1) parent_key sep _ (nodup_keys_dictUpdate _ acc h)

theorem flatten_json_nodup (d : JValue) (parent_key sep : String) :
    (keysOf (flatten_json d parent_key sep)).Nodup := by
  cases d with
  | obj fields => exact flattenFields_nodup fields parent_key sep [] List.nodup_nil
  | arr elems => exact flattenElems_nodup elems 0 parent_key sep [] List.nodup_nil
  | null => simp [flatten_json, keysOf]
  | bool b => simp [flatten_json, keysOf]
  | num q => simp [flatten_json, keysOf]
  | str s => simp [flatten_json, keysOf]

/-- Claim C7: comparing a document against itself yields empty only-in-A,
only-in-B and differing lists, and an identical list consisting of exactly
the document's flattened paths (in sorted order). -/
theorem C7_self_compare (d : JValue) :
    (compare_flat (flatten_json d "" ".") (flatten_json d "" ".")).only1 = [] ∧
    (compare_flat (flatten_json d "" ".") (flatten_json d "" ".")).only2 = [] ∧
    (compare_flat (flatten_json d "" ".") (flatten_json d "" ".")).diffs = [] ∧
    (compare_flat (flatten_json d "" ".") (flatten_json d "" ".")).in_both.Perm
      (keysOf (flatten_json d "" ".")) := by
  have hnd := flatten_json_nodup d "" "."
  have honly : pySetDiff (keysOf (flatten_json d "" "."))
      (keysOf (flatten_json d "" ".")) = [] := by
    rw [pySetDiff]
    have : (keysOf (flatten_json d "" ".")).dedup.filter
        (fun k => !((keysOf (flatten_json d "" ".")).contains k)) = [] := by
      rw [List.filter_eq_nil_iff]
      intro a ha
      rw [List.mem_dedup] at ha
      simp [ha, (contains_iff _ _).mpr ha]
    rw [this]
    rfl
  have hinter : pyInterKeys (keysOf (flatten_json d "" "."))
      (keysOf (flatten_json d "" ".")) =
      sortStr (keysOf (flatten_json d "" ".")) := by
    rw [pyInterKeys, hnd.dedup]
    congr 1
    rw [List.filter_eq_self]
    intro a ha
    simp [ha, (contains_iff _ _).mpr ha]
  refine ⟨?_, ?_, ?_, ?_⟩
  · rw [compare_flat_only1, honly]
  · rw [compare_flat_only2, honly]
  · rw [compare_flat_diffs, diffLoop_fst]
    have : (pyInterKeys (keysOf (flatten_json d "" "."))
        (keysOf (flatten_json d "" "."))).filter
        (fun k => !(pyEq (pyGet (flatten_json d "" ".") k)
          (pyGet (flatten_json d "" ".") k))) = [] := by
      rw [List.filter_eq_nil_iff]
      intro a _
      simp [pyEq_refl]
    rw [this]
    rfl
  · rw [compare_flat_in_both, diffLoop_snd]
    have : (pyInterKeys (keysOf (flatten_json d "" "."))
        (keysOf (flatten_json d "" "."))).filter
        (fun k => pyEq (pyGet (flatten_json d "" ".") k)
          (pyGet (flatten_json d "" ".") k)) =
        pyInterKeys (keysOf (flatten_json d "" "."))
          (keysOf (flatten_json d "" ".")) := by
      rw [List.filter_eq_self]
      intro a _
      simp [pyEq_refl]
    rw [this, hinter]
    exact sortStr_perm _

end CompareJson

namespace CompareJson

theorem pyEq_decomp (a b : Scalar) :
    pyEq a b = (typeSensitiveEq a b || boolNumCross a b) := by
  cases a <;> cases b <;>
    simp [pyEq, typeSensitiveEq, boolNumCross, Scalar.bool.injEq, Scalar.num.injEq,
      Scalar.str.injEq, Bool.beq_eq_decide_eq, beq_iff_eq]

/-- Counterexample to claim C4 as stated: at the path `k`, present in both
FlatViews, the value `true` of A and the value `1` of B are unequal under
deep type-sensitive equality, yet the comparison classifies the pair as
identical rather than differing, because Python's `==` identifies `True`
with `1`. -/
theorem C4_counterexample :
    (compare_flat [("k", Scalar.bool true)] [("k", Scalar.num 1)]).diffs = [] ∧
    (compare_flat [("k", Scalar.bool true)] [("k", Scalar.num 1)]).in_both = ["k"] ∧
    pyGet [("k", Scalar.bool true)] "k" = Scalar.bool true ∧
    pyGet [("k", Scalar.num 1)] "k" = Scalar.num 1 ∧
    typeSensitiveEq (Scalar.bool true) (Scalar.num 1) = false := by decide

/-- Claim C4 as amended: for every path present in both FlatViews, the pair
of values is classified as differing exactly when it is unequal under deep
type-sensitive value equality (numbers never equal strings, numeric values
compare exactly with no tolerance) and moreover is not a boolean paired
with the number carrying the same truth value, which Python's `==`
identifies. -/
theorem C4_value_classification (flat1 flat2 : List (String × Scalar)) (k : String)
    (h1 : k ∈ keysOf flat1) (h2 : k ∈ keysOf flat2) :
    (k ∈ (compare_flat flat1 flat2).diffs.map Prod.fst ↔
      ¬ (typeSensitiveEq (pyGet flat1 k) (pyGet flat2 k) = true ∨
        boolNumCross (pyGet flat1 k) (pyGet flat2 k) = true)) ∧
    (k ∈ (compare_flat flat1 flat2).in_both ↔
      (typeSensitiveEq (pyGet flat1 k) (pyGet flat2 k) = true ∨
        boolNumCross (pyGet flat1 k) (pyGet flat2 k) = true)) := by
  rw [mem_diffs_key, mem_in_both, pyEq_decomp]
  constructor
  · constructor
    · rintro ⟨-, -, h⟩
      rw [Bool.or_eq_false_iff] at h
      rintro (hc | hc)
      · rw [h.1] at hc; cases hc
      · rw [h.2] at hc; cases hc
    · intro h
      refine ⟨h1, h2, ?_⟩
      rw [Bool.or_eq_false_iff]
      constructor
      · cases hc : typeSensitiveEq (pyGet flat1 k) (pyGet flat2 k)
        · rfl
        · exact absurd (Or.inl hc) h
      · cases hc : boolNumCross (pyGet flat1 k) (pyGet flat2 k)
        · rfl
        · exact absurd (Or.inr hc) h
  · constructor
    · rintro ⟨-, -, h⟩
      rw [Bool.or_eq_true] at h
      exact h
    · intro h
      exact ⟨h1, h2, Bool.or_eq_true _ _ ▸ h⟩

/-- Witness for the amended C4 at a concrete path present in both views. -/
theorem C4_value_classification_witness :
    ("k" ∈ keysOf [("k", Scalar.num 1)] ∧ "k" ∈ keysOf [("k", Scalar.str "1")]) ∧
    (("k" ∈ (compare_flat [("k", Scalar.num 1)] [("k", Scalar.str "1")]).diffs.map Prod.fst ↔
      ¬ (typeSensitiveEq (pyGet [("k", Scalar.num 1)] "k")
          (pyGet [("k", Scalar.str "1")] "k") = true ∨
        boolNumCross (pyGet [("k", Scalar.num 1)] "k")
          (pyGet [("k", Scalar.str "1")] "k") = true)) ∧
    ("k" ∈ (compare_flat [("k", Scalar.num 1)] [("k", Scalar.str "1")]).in_both ↔
      (typeSensitiveEq (pyGet [("k", Scalar.num 1)] "k")
          (pyGet [("k", Scalar.str "1")] "k") = true ∨
        boolNumCross (pyGet [("k", Scalar.num 1)] "k")
          (pyGet [("k", Scalar.str "1")] "k") = true))) :=
  ⟨⟨by decide, by decide⟩,
    C4_value_classification [("k", Scalar.num 1)] [("k", Scalar.str "1")] "k"
      (by decide) (by decide)⟩

end CompareJson

namespace CompareJson

theorem toDigitsCore_append (f : Nat) : ∀ (n : Nat) (ds : List Char),
    Nat.toDigitsCore 10 f n ds = Nat.toDigitsCore 10 f n [] ++ ds := by
  induction f with
  | zero => intro n ds; simp [Nat.toDigitsCore]
  | succ f ih =>
    intro n ds
    simp only [Nat.toDigitsCore]
    by_cases h : n / 10 = 0
    · simp [h]
    · simp only [h, if_false]
      rw [ih (n / 10) (Nat.digitChar (n % 10) :: ds),
        ih (n / 10) [Nat.digitChar (n % 10)]]
      simp

theorem toDigitsCore_fuel (n : Nat) : ∀ f g (ds : List Char), n < f → n < g →
    Nat.toDigitsCore 10 f n ds = Nat.toDigitsCore 10 g n ds := by
  induction n using Nat.strong_induction_on with
  | _ n ih =>
    intro f g ds hf hg
    match f, g with
    | f + 1, g + 1 =>
      simp only [Nat.toDigitsCore]
      by_cases h : n / 10 = 0
      · simp [h]
      · simp only [h, if_false]
        have hn : 0 < n := Nat.pos_of_ne_zero (fun h0 => by simp [h0] at h)
        have hlt : n / 10 < n := Nat.div_lt_self hn (by norm_num)
        exact ih (n / 10) hlt f g _ (by omega) (by omega)

theorem listVal_append_digit (xs : List Char) (c : Char) :
    listVal (xs ++ [c]) = 10 * listVal xs + chVal c := by
  simp [listVal, List.foldl_append]

theorem chVal_digitChar : ∀ m, m < 10 → chVal (Nat.digitChar m) = m := by decide

theorem listVal_decRepr (n : Nat) : listVal (decRepr n) = n := by
  induction n using Nat.strong_induction_on with
  | _ n ih =>
    rw [decRepr]
    simp only [Nat.toDigitsCore]
    by_cases h : n / 10 = 0
    · have hn : n < 10 := by omega
      simp only [h, if_true]
      have : listVal [Nat.digitChar (n % 10)] = chVal (Nat.digitChar (n % 10)) := by
        simp [listVal]
      rw [this, chVal_digitChar _ (Nat.mod_lt n (by norm_num) |>.trans_le (by omega))]
      · exact Nat.mod_eq_of_lt hn
    · simp only [h, if_false]
      have hn : 0 < n := Nat.pos_of_ne_zero (fun h0 => by simp [h0] at h)
      have hlt : n / 10 < n := Nat.div_lt_self hn (by norm_num)
      rw [toDigitsCore_append]
      have hfe : Nat.toDigitsCore 10 n (n / 10) [] = decRepr (n / 10) := by
        rw [decRepr]
        exact toDigitsCore_fuel (n / 10) n (n / 10 + 1) [] (by omega) (by omega)
      rw [hfe, listVal_append_digit, ih (n / 10) hlt,
        chVal_digitChar _ (Nat.mod_lt n (by norm_num))]
      omega

theorem decRepr_inj {m n : Nat} (h : decRepr m = decRepr n) : m = n := by
  have hm := listVal_decRepr m
  rw [h, listVal_decRepr n] at hm
  exact hm.symm

theorem repr_data (n : Nat) : (Nat.repr n).data = decRepr n := rfl

theorem repr_inj {m n : Nat} (h : Nat.repr m = Nat.repr n) : m = n :=
  decRepr_inj (by rw [← repr_data, ← repr_data, h])

theorem toDigitsCore_mem (f : Nat) : ∀ (n : Nat) (ds : List Char) (c : Char),
    c ∈ Nat.toDigitsCore 10 f n ds → c ∈ ds ∨ ∃ m, m < 10 ∧ c = Nat.digitChar m := by
  induction f with
  | zero => intro n ds c hc; exact Or.inl hc
  | succ f ih =>
    intro n ds c hc
    simp only [Nat.toDigitsCore] at hc
    by_cases h : n / 10 = 0
    · rw [if_pos h] at hc
      rcases List.mem_cons.mp hc with hc | hc
      · exact Or.inr ⟨n % 10, Nat.mod_lt n (by norm_num), hc⟩
      · exact Or.inl hc
    · rw [if_neg h] at hc
      rcases ih (n / 10) _ c hc with hc2 | hc2
      · rcases List.mem_cons.mp hc2 with hc3 | hc3
        · exact Or.inr ⟨n % 10, Nat.mod_lt n (by norm_num), hc3⟩
        · exact Or.inl hc3
      · exact Or.inr hc2

theorem decRepr_digits (n : Nat) (c : Char) (h : c ∈ decRepr n) :
    ∃ m, m < 10 ∧ c = Nat.digitChar m := by
  rcases toDigitsCore_mem (n + 1) n [] c h with hc | hc
  · cases hc
  · exact hc

theorem toDigitsCore_length (f : Nat) : ∀ (n : Nat) (ds : List Char),
    ds.length ≤ (Nat.toDigitsCore 10 f n ds).length := by
  induction f with
  | zero => intro n ds; simp [Nat.toDigitsCore]
  | succ f ih =>
    intro n ds
    simp only [Nat.toDigitsCore]
    by_cases h : n / 10 = 0
    · simp [h]
    · rw [if_neg h]
      have := ih (n / 10) (Nat.digitChar (n % 10) :: ds)
      simp at this
      omega

theorem decRepr_ne_nil (n : Nat) : decRepr n ≠ [] := by
  rw [decRepr]
  simp only [Nat.toDigitsCore]
  by_cases h : n / 10 = 0
  · simp [h]
  · rw [if_neg h]
    intro hnil
    have := toDigitsCore_length n (n / 10) [Nat.digitChar (n % 10)]
    rw [hnil] at this
    simp at this

theorem digitChar_ne_dot : ∀ m, m < 10 → Nat.digitChar m ≠ '.' := by decide

theorem dot_not_mem_decRepr (n : Nat) : '.' ∉ decRepr n := by
  intro h
  rcases decRepr_digits n '.' h with ⟨m, hm, hc⟩
  exact digitChar_ne_dot m hm hc.symm

theorem goodStr_repr (n : Nat) : goodStr (Nat.repr n) = true := by
  rw [goodStr, Bool.and_eq_true]
  constructor
  · rw [bne_iff_ne]
    intro h
    have := congrArg String.data h
    rw [repr_data] at this
    exact decRepr_ne_nil n this
  · rw [Bool.not_eq_true']
    cases hc : (Nat.repr n).data.contains '.'
    · rfl
    · have : '.' ∈ (Nat.repr n).data := List.elem_iff.mp hc
      rw [repr_data] at this
      exact absurd this (dot_not_mem_decRepr n)

end CompareJson

namespace CompareJson

theorem splitAtDot (s : List Char) : ∀ (t u v : List Char), '.' ∉ s → '.' ∉ t →
    s ++ '.' :: u = t ++ '.' :: v → s = t ∧ u = v := by
  induction s with
  | nil =>
    intro t u v _ ht h
    cases t with
    | nil =>
      rw [List.nil_append, List.nil_append] at h
      injection h with _ h2
      exact ⟨rfl, h2⟩
    | cons c t2 =>
      rw [List.nil_append, List.cons_append] at h
      injection h with h1 _
      exact absurd (by rw [h1]; exact List.mem_cons_self c t2) ht
  | cons c s2 ih =>
    intro t u v hs ht h
    cases t with
    | nil =>
      rw [List.cons_append, List.nil_append] at h
      injection h with h1 _
      exact absurd (by rw [← h1]; exact List.mem_cons_self c s2) hs
    | cons d t2 =>
      rw [List.cons_append, List.cons_append] at h
      injection h with h1 h2
      have hs2 : '.' ∉ s2 := fun hm => hs (List.mem_cons_of_mem _ hm)
      have ht2 : '.' ∉ t2 := fun hm => ht (List.mem_cons_of_mem _ hm)
      obtain ⟨hst, huv⟩ := ih t2 u v hs2 ht2 h2
      exact ⟨by rw [h1, hst], huv⟩

theorem interChars_pair (s t : List Char) (rest : List (List Char)) :
    interChars (s :: t :: rest) = s ++ '.' :: interChars (t :: rest) := rfl

theorem interChars_ne_nil (s : List Char) (rest : List (List Char)) (hs : s ≠ []) :
    interChars (s :: rest) ≠ [] := by
  cases rest with
  | nil => exact hs
  | cons t r2 =>
    rw [interChars_pair]
    intro h
    cases s with
    | nil => exact hs rfl
    | cons c cs => cases h

theorem interChars_inj (ss : List (List Char)) : ∀ (ts : List (List Char)),
    (∀ x ∈ ss, x ≠ [] ∧ '.' ∉ x) → (∀ x ∈ ts, x ≠ [] ∧ '.' ∉ x) →
    interChars ss = interChars ts → ss = ts := by
  induction ss with
  | nil =>
    intro ts _ hts h
    cases ts with
    | nil => rfl
    | cons t ts2 =>
      exact absurd h.symm (interChars_ne_nil t ts2 (hts t (List.mem_cons_self t ts2)).1)
  | cons s ss2 ih =>
    intro ts hss hts h
    cases ts with
    | nil =>
      exact absurd h (interChars_ne_nil s ss2 (hss s (List.mem_cons_self s ss2)).1)
    | cons t ts2 =>
      cases ss2 with
      | nil =>
        cases ts2 with
        | nil =>
          rw [show interChars [s] = s from rfl, show interChars [t] = t from rfl] at h
          rw [h]
        | cons t2 ts3 =>
          exfalso
          rw [show interChars [s] = s from rfl, interChars_pair] at h
          apply (hss s (List.mem_cons_self s [])).2
          rw [h]
          exact List.mem_append_right _ (List.mem_cons_self _ _)
      | cons s2 ss3 =>
        cases ts2 with
        | nil =>
          exfalso
          rw [show interChars [t] = t from rfl, interChars_pair] at h
          apply (hts t (List.mem_cons_self t [])).2
          rw [← h]
          exact List.mem_append_right _ (List.mem_cons_self _ _)
        | cons t2 ts3 =>
          rw [interChars_pair, interChars_pair] at h
          obtain ⟨h1, h2⟩ := splitAtDot s t (interChars (s2 :: ss3)) (interChars (t2 :: ts3))
            (hss s (List.mem_cons_self _ _)).2 (hts t (List.mem_cons_self _ _)).2 h
          have h3 := ih (t2 :: ts3)
            (fun x hx => hss x (List.mem_cons_of_mem _ hx))
            (fun x hx => hts x (List.mem_cons_of_mem _ hx)) h2
          rw [h1, h3]

theorem goodStr_spec (k : String) (h : goodStr k = true) :
    k.data ≠ [] ∧ '.' ∉ k.data := by
  rw [goodStr, Bool.and_eq_true] at h
  constructor
  · intro hd
    exact bne_iff_ne.mp h.1 (String.ext hd)
  · intro hm
    have h2 := h.2
    rw [Bool.not_eq_true'] at h2
    have h3 : k.data.contains '.' = true := by
      simp [List.contains, List.elem_iff, hm]
    rw [h2] at h3
    cases h3

theorem goodSteps_tail {x : String} {xs : List String} (h : goodSteps (x :: xs)) :
    goodSteps xs := fun z hz => h z (List.mem_cons_of_mem _ hz)

theorem joinSteps_nil (p : String) : joinSteps p [] = p := rfl

theorem joinSteps_cons (p s : String) (ss : List String) :
    joinSteps p (s :: ss) = joinSteps (mkKey p "." s) ss := rfl

theorem joinSteps_append (p : String) (a b : List String) :
    joinSteps p (a ++ b) = joinSteps (joinSteps p a) b := by
  simp [joinSteps, List.foldl_append]

theorem joinSteps_data_ne (p : String) (s : String) (ss : List String) :
    p ≠ "" → goodSteps (s :: ss) →
    (joinSteps p (s :: ss)).data = p.data ++ '.' :: interChars ((s :: ss).map String.data) := by
  induction ss generalizing p s with
  | nil =>
    intro hp _
    rw [joinSteps_cons, joinSteps_nil, mkKey, if_neg hp]
    rw [String.data_append, String.data_append]
    rw [show interChars (List.map String.data [s]) = s.data from rfl]
    simp [show ("." : String).data = ['.'] from rfl]
  | cons s2 ss2 ih =>
    intro hp hg
    rw [joinSteps_cons]
    have hpk : mkKey p "." s ≠ "" := by
      rw [mkKey, if_neg hp]
      intro h
      have h2 := congrArg String.data h
      rw [String.data_append, String.data_append] at h2
      cases hps : p.data with
      | nil => exact hp (String.ext hps)
      | cons c cs => rw [hps] at h2; cases h2
    rw [ih (mkKey p "." s) s2 hpk (goodSteps_tail hg)]
    rw [mkKey, if_neg hp, String.data_append, String.data_append]
    simp only [List.map_cons]
    rw [interChars_pair]
    simp [show ("." : String).data = ['.'] from rfl]

theorem joinSteps_data_empty (s : String) (ss : List String) (hg : goodSteps (s :: ss)) :
    (joinSteps "" (s :: ss)).data = interChars ((s :: ss).map String.data) := by
  rw [joinSteps_cons, mkKey, if_pos rfl]
  cases ss with
  | nil => rfl
  | cons s2 ss2 =>
    have hs : s ≠ "" := by
      intro h
      apply (goodStr_spec s (hg s (List.mem_cons_self _ _))).1
      rw [h]
    rw [joinSteps_data_ne s s2 ss2 hs (goodSteps_tail hg)]
    simp only [List.map_cons]
    rw [interChars_pair]

theorem map_data_good {ss : List String} (h : goodSteps ss) :
    ∀ x ∈ ss.map String.data, x ≠ [] ∧ '.' ∉ x := by
  intro x hx
  rcases List.mem_map.mp hx with ⟨w, hw, rfl⟩
  exact goodStr_spec w (h w hw)

theorem joinSteps_ne_of_head_ne (p x y : String) (u v : List String)
    (hx : goodSteps (x :: u)) (hy : goodSteps (y :: v)) (hxy : x ≠ y) :
    joinSteps p (x :: u) ≠ joinSteps p (y :: v) := by
  intro h
  have hd := congrArg String.data h
  by_cases hp : p = ""
  · subst hp
    rw [joinSteps_data_empty x u hx, joinSteps_data_empty y v hy] at hd
    have h2 := interChars_inj _ _ (map_data_good hx) (map_data_good hy) hd
    rw [List.map_cons, List.map_cons] at h2
    injection h2 with h3 _
    exact hxy (String.ext h3)
  · rw [joinSteps_data_ne p x u hp hx, joinSteps_data_ne p y v hp hy] at hd
    have hd2 := List.append_cancel_left hd
    injection hd2 with _ hd3
    have h2 := interChars_inj _ _ (map_data_good hx) (map_data_good hy) hd3
    rw [List.map_cons, List.map_cons] at h2
    injection h2 with h3 _
    exact hxy (String.ext h3)

theorem joinSteps_ne_of_diverge (p : String) (s t : List String)
    (hst : Diverge s t) (hs : goodSteps s) (ht : goodSteps t) :
    joinSteps p s ≠ joinSteps p t := by
  obtain ⟨a, x, y, u, v, hxy, rfl, rfl⟩ := hst
  rw [joinSteps_append, joinSteps_append]
  exact joinSteps_ne_of_head_ne _ x y u v
    (fun z hz => hs z (List.mem_append_right a hz))
    (fun z hz => ht z (List.mem_append_right a hz)) hxy

end CompareJson

namespace CompareJson

theorem goodSteps_nil : goodSteps [] := fun x hx => absurd hx (List.not_mem_nil x)

mutual

theorem leafSteps_good (d : JValue) : goodB d = true →
    ∀ s ∈ leafSteps d, goodSteps s := by
  intro h s hs
  match d with
  | .obj fields =>
    rw [goodB] at h
    exact stepsFields_good fields h s hs
  | .arr elems =>
    rw [goodB] at h
    exact stepsElems_good elems 0 h s hs
  | .null | .bool _ | .num _ | .str _ =>
    simp [leafSteps] at hs
    rw [hs]
    exact goodSteps_nil

theorem stepsFields_good (fs : List (String × JValue)) : goodFields fs = true →
    ∀ s ∈ stepsFields fs, goodSteps s := by
  intro h s hs
  match fs with
  | [] => exact absurd hs (List.not_mem_nil s)
  | (k, v) :: rest =>
    rw [goodFields, Bool.and_eq_true, Bool.and_eq_true, Bool.and_eq_true] at h
    obtain ⟨⟨⟨hk, -⟩, hv⟩, hrest⟩ := h
    rw [stepsFields] at hs
    rcases List.mem_append.mp hs with hs | hs
    · rcases List.mem_map.mp hs with ⟨t, ht, rfl⟩
      intro x hx
      rcases List.mem_cons.mp hx with hx | hx
      · rw [hx]; exact hk
      · exact leafSteps_good v hv t ht x hx
    · exact stepsFields_good rest hrest s hs

theorem stepsElems_good (xs : List JValue) : ∀ i, goodElems xs = true →
    ∀ s ∈ stepsElems xs i, goodSteps s := by
  intro i h s hs
  match xs with
  | [] => exact absurd hs (List.not_mem_nil s)
  | v :: rest =>
    rw [goodElems, Bool.and_eq_true] at h
    rw [stepsElems] at hs
    rcases List.mem_append.mp hs with hs | hs
    · rcases List.mem_map.mp hs with ⟨t, ht, rfl⟩
      intro x hx
      rcases List.mem_cons.mp hx with hx | hx
      · rw [hx]; exact goodStr_repr i
      · exact leafSteps_good v h.1 t ht x hx
    · exact stepsElems_good rest (i + 1) h.2 s hs

end

theorem stepsFields_shape (fs : List (String × JValue)) :
    ∀ s ∈ stepsFields fs, ∃ k u, s = k :: u ∧ k ∈ fs.map Prod.fst := by
  induction fs with
  | nil => intro s hs; exact absurd hs (List.not_mem_nil s)
  | cons p rest ih =>
    rcases p with ⟨k, v⟩
    intro s hs
    rw [stepsFields] at hs
    rcases List.mem_append.mp hs with hs | hs
    · rcases List.mem_map.mp hs with ⟨t, -, rfl⟩
      exact ⟨k, t, rfl, List.mem_cons_self _ _⟩
    · rcases ih s hs with ⟨k0, u, hu, hk0⟩
      exact ⟨k0, u, hu, List.mem_cons_of_mem _ hk0⟩

theorem stepsElems_shape (xs : List JValue) :
    ∀ i, ∀ s ∈ stepsElems xs i, ∃ m u, s = Nat.repr m :: u ∧ i ≤ m := by
  induction xs with
  | nil => intro i s hs; exact absurd hs (List.not_mem_nil s)
  | cons v rest ih =>
    intro i s hs
    rw [stepsElems] at hs
    rcases List.mem_append.mp hs with hs | hs
    · rcases List.mem_map.mp hs with ⟨t, -, rfl⟩
      exact ⟨i, t, rfl, Nat.le_refl i⟩
    · rcases ih (i + 1) s hs with ⟨m, u, hu, hm⟩
      exact ⟨m, u, hu, by omega⟩

theorem diverge_cons (k : String) {s t : List String} (h : Diverge s t) :
    Diverge (k :: s) (k :: t) := by
  obtain ⟨a, x, y, u, v, hxy, rfl, rfl⟩ := h
  exact ⟨k :: a, x, y, u, v, hxy, rfl, rfl⟩

theorem diverge_head {x y : String} (u v : List String) (hxy : x ≠ y) :
    Diverge (x :: u) (y :: v) := ⟨[], x, y, u, v, hxy, rfl, rfl⟩

mutual

theorem leafSteps_div (d : JValue) : goodB d = true →
    List.Pairwise Diverge (leafSteps d) := by
  intro h
  match d with
  | .obj fields =>
    rw [goodB] at h
    exact stepsFields_div fields h
  | .arr elems =>
    rw [goodB] at h
    exact stepsElems_div elems 0 h
  | .null | .bool _ | .num _ | .str _ =>
    exact List.pairwise_singleton _ _

theorem stepsFields_div (fs : List (String × JValue)) : goodFields fs = true →
    List.Pairwise Diverge (stepsFields fs) := by
  intro h
  match fs with
  | [] => exact List.Pairwise.nil
  | (k, v) :: rest =>
    rw [goodFields, Bool.and_eq_true, Bool.and_eq_true, Bool.and_eq_true] at h
    obtain ⟨⟨⟨-, hany⟩, hv⟩, hrest⟩ := h
    rw [stepsFields, List.pairwise_append]
    refine ⟨?_, stepsFields_div rest hrest, ?_⟩
    · rw [List.pairwise_map]
      exact (leafSteps_div v hv).imp (diverge_cons k)
    · intro s hs t ht
      rcases List.mem_map.mp hs with ⟨su, -, rfl⟩
      rcases stepsFields_shape rest t ht with ⟨k0, u, rfl, hk0⟩
      apply diverge_head
      intro hkk
      rw [Bool.not_eq_true', List.any_eq_false] at hany
      rcases List.mem_map.mp hk0 with ⟨p, hp, rfl⟩
      exact hany p hp (beq_iff_eq.mpr hkk.symm)

theorem stepsElems_div (xs : List JValue) : ∀ i, goodElems xs = true →
    List.Pairwise Diverge (stepsElems xs i) := by
  intro i h
  match xs with
  | [] => exact List.Pairwise.nil
  | v :: rest =>
    rw [goodElems, Bool.and_eq_true] at h
    rw [stepsElems, List.pairwise_append]
    refine ⟨?_, stepsElems_div rest (i + 1) h.2, ?_⟩
    · rw [List.pairwise_map]
      exact (leafSteps_div v h.1).imp (diverge_cons (Nat.repr i))
    · intro s hs t ht
      rcases List.mem_map.mp hs with ⟨su, -, rfl⟩
      rcases stepsElems_shape rest (i + 1) t ht with ⟨m, u, rfl, hm⟩
      apply diverge_head
      intro hkk
      have := repr_inj hkk
      omega

end

end CompareJson

namespace CompareJson

theorem keysOf_append (a b : List (String × α)) :
    keysOf (a ++ b) = keysOf a ++ keysOf b := by
  simp [keysOf]

mutual

theorem keysOf_sFlat (d : JValue) : ∀ p,
    keysOf (sFlat d p) = (leafSteps d).map (joinSteps p) := by
  intro p
  match d with
  | .obj fields =>
    rw [show sFlat (.obj fields) p = sFields fields p from rfl,
      show leafSteps (.obj fields) = stepsFields fields from rfl]
    exact keysOf_sFields fields p
  | .arr elems =>
    rw [show sFlat (.arr elems) p = sElems elems 0 p from rfl,
      show leafSteps (.arr elems) = stepsElems elems 0 from rfl]
    exact keysOf_sElems elems 0 p
  | .null | .bool _ | .num _ | .str _ => simp [sFlat, leafSteps, keysOf, joinSteps]

theorem keysOf_sFields (fs : List (String × JValue)) : ∀ p,
    keysOf (sFields fs p) = (stepsFields fs).map (joinSteps p) := by
  intro p
  match fs with
  | [] => rfl
  | (k, v) :: rest =>
    rw [sFields, stepsFields, keysOf_append, List.map_append, List.map_map]
    rw [keysOf_sFlat v (mkKey p "." k), keysOf_sFields rest p]
    rfl

theorem keysOf_sElems (xs : List JValue) : ∀ i p,
    keysOf (sElems xs i p) = (stepsElems xs i).map (joinSteps p) := by
  intro i p
  match xs with
  | [] => rfl
  | v :: rest =>
    rw [sElems, stepsElems, keysOf_append, List.map_append, List.map_map]
    rw [keysOf_sFlat v (mkKey p "." (Nat.repr i)), keysOf_sElems rest (i + 1) p]
    rfl

end

theorem sFlat_keys_nodup (d : JValue) (p : String) (h : goodB d = true) :
    (keysOf (sFlat d p)).Nodup := by
  rw [keysOf_sFlat]
  have hg := leafSteps_good d h
  have hpw : List.Pairwise (fun s t => joinSteps p s ≠ joinSteps p t) (leafSteps d) :=
    (leafSteps_div d h).imp_of_mem
      (fun hs ht hdiv => joinSteps_ne_of_diverge p _ _ hdiv (hg _ hs) (hg _ ht))
  have h2 : List.Pairwise (fun a b => a ≠ b) ((leafSteps d).map (joinSteps p)) :=
    List.pairwise_map.mpr hpw
  exact h2

mutual

theorem sFlat_length (d : JValue) : ∀ p, (sFlat d p).length = leafCount d := by
  intro p
  match d with
  | .obj fields => exact sFields_length fields p
  | .arr elems => exact sElems_length elems 0 p
  | .null | .bool _ | .num _ | .str _ => rfl

theorem sFields_length (fs : List (String × JValue)) : ∀ p,
    (sFields fs p).length = leafCountFields fs := by
  intro p
  match fs with
  | [] => rfl
  | (k, v) :: rest =>
    rw [sFields, leafCountFields, List.length_append,
      sFlat_length v (mkKey p "." k), sFields_length rest p]

theorem sElems_length (xs : List JValue) : ∀ i p,
    (sElems xs i p).length = leafCountElems xs := by
  intro i p
  match xs with
  | [] => rfl
  | v :: rest =>
    rw [sElems, leafCountElems, List.length_append,
      sFlat_length v (mkKey p "." (Nat.repr i)), sElems_length rest (i + 1) p]

end

theorem dictUpdate_append_of_fresh (l : List (String × α)) :
    ∀ acc, (keysOf l).Nodup → (∀ k ∈ keysOf l, k ∉ keysOf acc) →
    dictUpdate acc l = acc ++ l := by
  induction l with
  | nil => intro acc _ _; simp [dictUpdate]
  | cons p rest ih =>
    rcases p with ⟨k, v⟩
    intro acc hnd hdisj
    have hstep : dictUpdate acc ((k, v) :: rest) = dictUpdate (setItem acc k v) rest := rfl
    have hfresh : setItem acc k v = acc ++ [(k, v)] := by
      apply setItem_fresh
      intro q hq hqk
      exact hdisj k (List.mem_cons_self _ _) (List.mem_map.mpr ⟨q, hq, hqk⟩)
    rw [hstep, hfresh, ih (acc ++ [(k, v)]) (List.Nodup.of_cons hnd) ?fresh2]
    · rw [List.append_assoc]
      rfl
    case fresh2 =>
      intro k2 hk2 hk2mem
      rw [keysOf_append] at hk2mem
      rcases List.mem_append.mp hk2mem with hm | hm
      · exact hdisj k2 (List.mem_cons_of_mem _ hk2) hm
      · have hk2k : k2 = k := by simpa [keysOf] using hm
        have hnd2 : (k :: keysOf rest).Nodup := hnd
        rw [List.nodup_cons] at hnd2
        exact hnd2.1 (hk2k ▸ hk2)

mutual

theorem flatten_eq_sFlat (d : JValue) : ∀ p, goodB d = true →
    flatten_json d p "." = sFlat d p := by
  intro p h
  match d with
  | .obj fields =>
    rw [goodB] at h
    have hnd : (keysOf ([] : List (String × Scalar)) ++ keysOf (sFields fields p)).Nodup := by
      rw [show keysOf ([] : List (String × Scalar)) = [] from rfl, List.nil_append]
      exact sFlat_keys_nodup (.obj fields) p (by rw [goodB]; exact h)
    rw [show flatten_json (.obj fields) p "." = flattenFields fields p "." [] from rfl,
      flattenFields_eq fields p [] h hnd]
    rfl
  | .arr elems =>
    rw [goodB] at h
    have hnd : (keysOf ([] : List (String × Scalar)) ++ keysOf (sElems elems 0 p)).Nodup := by
      rw [show keysOf ([] : List (String × Scalar)) = [] from rfl, List.nil_append]
      exact sFlat_keys_nodup (.arr elems) p (by rw [goodB]; exact h)
    rw [show flatten_json (.arr elems) p "." = flattenElems elems 0 p "." [] from rfl,
      flattenElems_eq elems 0 p [] h hnd]
    rfl
  | .null | .bool _ | .num _ | .str _ => rfl

theorem flattenFields_eq (fs : List (String × JValue)) : ∀ p acc, goodFields fs = true →
    (keysOf acc ++ keysOf (sFields fs p)).Nodup →
    flattenFields fs p "." acc = acc ++ sFields fs p := by
  intro p acc h hnd
  match fs with
  | [] => simp [flattenFields, sFields]
  | (k, v) :: rest =>
    rw [goodFields, Bool.and_eq_true, Bool.and_eq_true, Bool.and_eq_true] at h
    obtain ⟨⟨⟨-, -⟩, hv⟩, hrest⟩ := h
    rw [sFields, keysOf_append] at hnd
    have hndc : (keysOf (sFlat v (mkKey p "." k))).Nodup := by
      apply List.Nodup.sublist ?sub hnd
      case sub =>
        exact List.Sublist.trans (List.sublist_append_left _ _)
          (List.sublist_append_right _ _)
    have hdisj : ∀ k2 ∈ keysOf (sFlat v (mkKey p "." k)), k2 ∉ keysOf acc := by
      intro k2 hk2 hk2acc
      rcases (List.nodup_append.mp hnd).2.2 hk2acc with hmem
      exact hmem (List.mem_append_left _ hk2)
    rw [flattenFields, flatten_eq_sFlat v (mkKey p "." k) hv,
      dictUpdate_append_of_fresh _ acc hndc hdisj]
    have hnd2 : (keysOf (acc ++ sFlat v (mkKey p "." k)) ++ keysOf (sFields rest p)).Nodup := by
      rw [keysOf_append, List.append_assoc]
      exact hnd
    rw [flattenFields_eq rest p (acc ++ sFlat v (mkKey p "." k)) hrest hnd2]
    rw [sFields, List.append_assoc]

theorem flattenElems_eq (xs : List JValue) : ∀ i p acc, goodElems xs = true →
    (keysOf acc ++ keysOf (sElems xs i p)).Nodup →
    flattenElems xs i p "." acc = acc ++ sElems xs i p := by
  intro i p acc h hnd
  match xs with
  | [] => simp [flattenElems, sElems]
  | v :: rest =>
    rw [goodElems, Bool.and_eq_true] at h
    rw [sElems, keysOf_append] at hnd
    have hndc : (keysOf (sFlat v (mkKey p "." (Nat.repr i)))).Nodup := by
      apply List.Nodup.sublist ?sub2 hnd
      case sub2 =>
        exact List.Sublist.trans (List.sublist_append_left _ _)
          (List.sublist_append_right _ _)
    have hdisj : ∀ k2 ∈ keysOf (sFlat v (mkKey p "." (Nat.repr i))), k2 ∉ keysOf acc := by
      intro k2 hk2 hk2acc
      rcases (List.nodup_append.mp hnd).2.2 hk2acc with hmem
      exact hmem (List.mem_append_left _ hk2)
    rw [flattenElems, flatten_eq_sFlat v (mkKey p "." (Nat.repr i)) h.1,
      dictUpdate_append_of_fresh _ acc hndc hdisj]
    have hnd2 : (keysOf (acc ++ sFlat v (mkKey p "." (Nat.repr i))) ++
        keysOf (sElems rest (i + 1) p)).Nodup := by
      rw [keysOf_append, List.append_assoc]
      exact hnd
    rw [flattenElems_eq rest (i + 1) p (acc ++ sFlat v (mkKey p "." (Nat.repr i))) h.2 hnd2]
    rw [sElems, List.append_assoc]

end

end CompareJson

namespace CompareJson

/-- Counterexample to claim C1 as stated: when a mapping key contains the
separator character, two distinct leaves collide on the same path and the
dict update silently overwrites one.  The document with the two leaves `1`
(at key `a.b`) and `2` (at key `b` inside key `a`) flattens to a single
entry, so the FlatView has fewer entries than the document has leaves and
the leaf `1` is not recorded at all. -/
theorem C1_counterexample :
    leafCount (.obj [("a.b", .num 1), ("a", .obj [("b", .num 2)])]) = 2 ∧
    (flatten_json (.obj [("a.b", .num 1), ("a", .obj [("b", .num 2)])]) "" ".").length = 1 ∧
    flatten_json (.obj [("a.b", .num 1), ("a", .obj [("b", .num 2)])]) "" "." =
      [("a.b", Scalar.num 2)] := by decide

/-- Claim C1 as amended: for every Document whose mappings have distinct
keys, each nonempty and free of the separator character, flattening is
injective over leaves: the FlatView lists the leaves one-to-one in
depth-first order (no entry is overwritten), its paths are pairwise
distinct, and the total number of entries equals the number of leaves. -/
theorem C1_flatten_injective (d : JValue) (h : goodB d = true) :
    flatten_json d "" "." = sFlat d "" ∧
    (keysOf (flatten_json d "" ".")).Nodup ∧
    (flatten_json d "" ".").length = leafCount d := by
  have he := flatten_eq_sFlat d "" h
  refine ⟨he, ?_, ?_⟩
  · rw [he]
    exact sFlat_keys_nodup d "" h
  · rw [he]
    exact sFlat_length d ""

/-- Witness for the amended C1 at a concrete nested document with an
object, an array and scalar leaves. -/
theorem C1_flatten_injective_witness :
    goodB (.obj [("a", .num 1), ("b", .arr [.num 2, .obj [("c", .null)]])]) = true ∧
    (flatten_json (.obj [("a", .num 1), ("b", .arr [.num 2, .obj [("c", .null)]])]) "" "." =
        sFlat (.obj [("a", .num 1), ("b", .arr [.num 2, .obj [("c", .null)]])]) "" ∧
      (keysOf (flatten_json
        (.obj [("a", .num 1), ("b", .arr [.num 2, .obj [("c", .null)]])]) "" ".")).Nodup ∧
      (flatten_json
          (.obj [("a", .num 1), ("b", .arr [.num 2, .obj [("c", .null)]])]) "" ".").length =
        leafCount (.obj [("a", .num 1), ("b", .arr [.num 2, .obj [("c", .null)]])])) :=
  ⟨by decide, C1_flatten_injective _ (by decide)⟩

end CompareJson
